import Mathlib

/-!
Verification development for the internal-linking engine of the
`c7-labs/internal-linking` repository.

The engine under study is the `interLink` module variant that exports
`processInternalLinks(content, sitemapKeywords)` (taking a keyword `Map`)
and `readSitemap(sitemapUrl)`, together with its helpers
`extractPhrasesFromContent`, `calculateSemanticSimilarity`,
`findRelatedKeywords`, `getContext`, `extractUrlsFromSitemap`.

Strings are modelled as `List Char` (`Str`).  The source operates on
JavaScript strings; all inputs considered here are ASCII, where JS UTF-16
code units, Unicode code points and `Char` coincide, so character-list
indices agree with JS string indices.  External collaborators (the
`natural` tokenizer/stemmer, HTTP fetch, XML parsing) are not part of the
repository; they are modelled explicitly below, each with a comment.
-/

abbrev Str := List Char

/-- JS whitespace characters relevant to `trim`/`trimEnd`/`\s` on the ASCII
inputs considered here. -/
def isWsChar (c : Char) : Bool :=
  c = ' ' || c = '\t' || c = '\n' || c = '\r' || c = '\x0b' || c = '\x0c'

/-- JS `String.prototype.trimEnd`. -/
def jsTrimEnd (s : Str) : Str :=
  (s.reverse.dropWhile isWsChar).reverse

/-- JS `String.prototype.trim`. -/
def jsTrim (s : Str) : Str :=
  jsTrimEnd (s.dropWhile isWsChar)

/-- JS `String.prototype.toLowerCase` (ASCII). -/
def toLowerStr (s : Str) : Str := s.map Char.toLower

/-- Characters `.`, `!`, `?`: the sentence terminators of the engine. -/
def isTermChar (c : Char) : Bool := c = '.' || c = '!' || c = '?'

/-- JS `split(sep)` for a single-character separator: no run merging,
`"a//b".split('/') = ["a","","b"]`, `"".split('/') = [""]`. -/
def splitOnChar (sep : Char) : Str → List Str
  | [] => [[]]
  | c :: rest =>
    if c = sep then [] :: splitOnChar sep rest
    else
      match splitOnChar sep rest with
      | [] => [[c]]
      | h :: t => (c :: h) :: t

/-- JS `split(/p+/)` for a character class `p`: maximal runs of matching
characters are single separators; a leading or trailing run yields an
empty piece at that end. -/
def splitRunsBy (p : Char → Bool) : Str → List Str
  | [] => [[]]
  | c :: rest =>
    let r := splitRunsBy p rest
    if p c then
      match rest with
      | [] => [[], []]
      | d :: _ => if p d then r else [] :: r
    else
      match r with
      | [] => [[c]]
      | h :: t => (c :: h) :: t

/-- JS `split(/\s+/)`. -/
def splitWsRuns (s : Str) : List Str := splitRunsBy isWsChar s

def startsWithL (s pre : Str) : Bool := pre.isPrefixOf s

def endsWithL (s suf : Str) : Bool := suf.reverse.isPrefixOf s.reverse

def containsChar (s : Str) (c : Char) : Bool := s.contains c

/-- First index at which `needle` occurs in `hay` (JS `indexOf`);
`some 0` for the empty needle. -/
def indexOfSub? (hay needle : Str) : Option Nat :=
  if needle.isPrefixOf hay then some 0
  else
    match hay with
    | [] => none
    | _ :: t => (indexOfSub? t needle).map (· + 1)

def containsSub (hay needle : Str) : Bool := (indexOfSub? hay needle).isSome

/-- JS `Set.add` on a list representation keeping insertion order. -/
def insertUniq (l : List Str) (x : Str) : List Str :=
  if x ∈ l then l else l ++ [x]

/-- `Array.from(set)` of repeated `Set.add`s. -/
def setOfList (l : List Str) : List Str := l.foldl insertUniq []

/-- Index of the first occurrence of a character (JS `indexOf` for a
single-character needle). -/
def indexOfChar? (c : Char) : Str → Option Nat
  | [] => none
  | d :: t => if d = c then some 0 else (indexOfChar? c t).map (· + 1)

/-- Index of the last sentence terminator in a string, if any. -/
def lastTermIdx? : Str → Option Nat
  | [] => none
  | c :: t =>
    match lastTermIdx? t with
    | some j => some (j + 1)
    | none => if isTermChar c then some 0 else none

/-- Index of the first sentence terminator (or the length if none). -/
def firstTermIdxFrom (s : Str) : Nat := (s.takeWhile (fun c => !isTermChar c)).length

/-! ### External collaborators (`natural` tokenizer and stemmer)

These come from the `natural` npm package, which is not part of the
repository; the spec treats them as the SimilarityScorer's word-boundary
tokenizer and memoized Porter-style stemmer. -/

/-- Modelled from the spec: the `natural` library `WordTokenizer` used by
the engine (an external collaborator, not code of this repository) splits a
string on word boundaries and discards empty tokens; on the ASCII inputs
considered here it splits on maximal runs of non-word characters (word
characters: letters, digits, underscore). -/
def jsTokenize (s : Str) : List Str :=
  (splitRunsBy (fun c => !(c.isAlphanum || c = '_')) s).filter (· ≠ [])

/-- Modelled from the spec: the `natural` library `PorterStemmer` behind the
source's `cachedStem` (an external collaborator, not code of this
repository): a Porter-style suffix-stripping stemmer applied to lower-cased
words; the memoization cache affects performance only, so the model is the
pure function.  It is modelled by the Porter step-1a plural rules
(`sses` → `ss`, `ies` → `i`, `ss` → `ss`, otherwise drop a final `s`), which
agree with the full Porter stemmer on every word occurring in this
development. -/
def cachedStem (word : Str) : Str :=
  let x := toLowerStr word
  if endsWithL x ['s', 's', 'e', 's'] then x.dropLast.dropLast
  else if endsWithL x ['i', 'e', 's'] then x.dropLast.dropLast
  else if endsWithL x ['s', 's'] then x
  else if endsWithL x ['s'] then x.dropLast
  else x

/-! ### Regex scanners

The source uses a handful of regexes; each is rendered here by a direct
scanner with the same (lazy/greedy, leftmost-match) semantics.  Scanners
that do not recurse structurally take a fuel argument initialised to
`length + 1`, which is always sufficient because every step consumes at
least one character of the input. -/

/-- For the part `rest` following a `[`: the number of characters of `rest`
consumed by `.*?\]\(.*?\)` (the removal regex `/\[.*?\]\(.*?\)/g`), i.e. the
first `]` immediately followed by `(` — earlier `]`s not followed by `(` are
skipped by backtracking of the lazy `.*?` — then the first `)` after it. -/
def closeOpenIdx? : Str → Option Nat
  | [] => none
  | [_] => none
  | c :: d :: t =>
    if c = ']' && d = '(' then some 0 else (closeOpenIdx? (d :: t)).map (· + 1)

def linkTailLen? (rest : Str) : Option Nat :=
  match closeOpenIdx? rest with
  | none => none
  | some j =>
    match indexOfChar? ')' (rest.drop (j + 2)) with
    | none => none
    | some k => some (j + 2 + k + 1)

/-- `replace(/\[.*?\]\(.*?\)/g, '')`: remove markdown links. -/
def stripLinksGo : Nat → Str → Str
  | 0, s => s
  | _ + 1, [] => []
  | f + 1, c :: rest =>
    if c = '[' then
      match linkTailLen? rest with
      | some k => stripLinksGo f (rest.drop k)
      | none => c :: stripLinksGo f rest
    else c :: stripLinksGo f rest

def stripLinksLazy (s : Str) : Str := stripLinksGo (s.length + 1) s

/-- Length of a match of `https?:\/\/[^\s)]+` anchored at the start of `s`,
if any. -/
def urlLen? (s : Str) : Option Nat :=
  let scheme? : Option Nat :=
    if startsWithL s ['h', 't', 't', 'p', 's', ':', '/', '/'] then some 8
    else if startsWithL s ['h', 't', 't', 'p', ':', '/', '/'] then some 7
    else none
  match scheme? with
  | none => none
  | some m =>
    let body := (s.drop m).takeWhile (fun c => !isWsChar c && c ≠ ')')
    if body = [] then none else some (m + body.length)

/-- `replace(/https?:\/\/[^\s)]+/g, '')`: remove raw URLs. -/
def removeUrlsGo : Nat → Str → Str
  | 0, s => s
  | _ + 1, [] => []
  | f + 1, c :: rest =>
    match urlLen? (c :: rest) with
    | some k => removeUrlsGo f ((c :: rest).drop k)
    | none => c :: removeUrlsGo f rest

def removeUrls (s : Str) : Str := removeUrlsGo (s.length + 1) s

/-- `replace(/\*\*(.*?)\*\*/g, '$1')`: remove bold markers, keep content. -/
def removeBoldGo : Nat → Str → Str
  | 0, s => s
  | _ + 1, [] => []
  | f + 1, c :: rest =>
    if c = '*' then
      match rest with
      | d :: rest2 =>
        if d = '*' then
          match indexOfSub? rest2 ['*', '*'] with
          | some j => rest2.take j ++ removeBoldGo f (rest2.drop (j + 2))
          | none => c :: removeBoldGo f rest
        else c :: removeBoldGo f rest
      | [] => [c]
    else c :: removeBoldGo f rest

def removeBoldKeep (s : Str) : Str := removeBoldGo (s.length + 1) s

/-- A span as stored by the engine: `{start, end}` with
`end = match.index + match[0].length`. -/
structure Span where
  start : Nat
  stop : Nat
deriving DecidableEq, Repr

/-- A bold-format record of the per-line `markdownFormats` scan
(`/\*\*(.*?)\*\*/g`). -/
structure BoldFmt where
  start : Nat
  stop : Nat
  content : Str
deriving DecidableEq, Repr

def scanBoldGo : Nat → Nat → Str → List BoldFmt
  | 0, _, _ => []
  | _ + 1, _, [] => []
  | f + 1, i, c :: rest =>
    if c = '*' then
      match rest with
      | d :: rest2 =>
        if d = '*' then
          match indexOfSub? rest2 ['*', '*'] with
          | some j =>
            ⟨i, i + j + 4, rest2.take j⟩ :: scanBoldGo f (i + j + 4) (rest2.drop (j + 2))
          | none => scanBoldGo f (i + 1) rest
        else scanBoldGo f (i + 1) rest
      | [] => []
    else scanBoldGo f (i + 1) rest

def scanBold (s : Str) : List BoldFmt := scanBoldGo (s.length + 1) 0 s

/-- For the part `rest` following a `[`: label and consumed length of a
match of the link-scan regex `/\[([^\]]+)\]\(([^)]+)\)/g`, which requires a
non-empty run of non-`]` characters up to the first `]`, then `(`, a
non-empty run of non-`)` characters, and `)`. -/
def linkStrictTail? (rest : Str) : Option (Str × Nat) :=
  match indexOfChar? ']' rest with
  | none => none
  | some j =>
    if j = 0 then none
    else
      match rest.drop (j + 1) with
      | d :: rest2 =>
        if d = '(' then
          match indexOfChar? ')' rest2 with
          | none => none
          | some k => if k = 0 then none else some (rest.take j, j + k + 3)
        else none
      | [] => none

def scanLinksLabeledGo : Nat → Nat → Str → List (Span × Str)
  | 0, _, _ => []
  | _ + 1, _, [] => []
  | f + 1, i, c :: rest =>
    if c = '[' then
      match linkStrictTail? rest with
      | some (label, k) =>
        (⟨i, i + 1 + k⟩, label) :: scanLinksLabeledGo f (i + 1 + k) (rest.drop k)
      | none => scanLinksLabeledGo f (i + 1) rest
    else scanLinksLabeledGo f (i + 1) rest

/-- First pass of `processInternalLinks`: the positions of existing markdown
links found by `/\[([^\]]+)\]\(([^)]+)\)/g`. -/
def scanLinks (s : Str) : List Span :=
  (scanLinksLabeledGo (s.length + 1) 0 s).map (·.1)

/-- The labels (link text) of the markdown links of a string, in order. -/
def linkLabels (s : Str) : List Str :=
  (scanLinksLabeledGo (s.length + 1) 0 s).map (·.2)

/-! ### Scores

The engine's similarity scores are quotients of small set sizes, compared
against the constants `0.8` and `0.5` and against each other.  A score is
modelled as an exact fraction `num/den` with comparisons by
cross-multiplication; for quotients of the set sizes arising here and the
exactly representable constants `0.8` and `0.5`, IEEE double comparison and
exact rational comparison agree, so the model is faithful to the JS
numbers.  `NaN` is modelled separately as `none` where it can arise. -/

structure Score where
  num : Nat
  den : Nat
deriving DecidableEq, Repr

/-- `a <= b` on score values (denominators are positive in every use). -/
def scoreLe (a b : Score) : Bool := a.num * b.den ≤ b.num * a.den

/-- `a < b` on score values. -/
def scoreLt (a b : Score) : Bool := a.num * b.den < b.num * a.den

/-- `Math.min(1, x)`: JS floats have one representation per value, so a
quotient at least `1` collapses to the float `1`. -/
def minOne (s : Score) : Score := if s.den ≤ s.num then ⟨1, 1⟩ else s

/-! ### `calculateSemanticSimilarity` -/

/-- `calculateSemanticSimilarity` from the source.  The result models a JS
number: `some s` for a real value, `none` for `NaN` — which arises exactly
as the division `0/0` when the union of the two stemmed token sets is
empty, and then survives `Math.min(1, NaN) = NaN`. -/
def calculateSemanticSimilarity (phrase1 phrase2 : Str) : Option Score :=
  let tokens1 := jsTokenize (toLowerStr phrase1)
  let tokens2 := jsTokenize (toLowerStr phrase2)
  let set1 := setOfList (tokens1.map cachedStem)
  let set2 := setOfList (tokens2.map cachedStem)
  let intersection := setOfList (set1.filter (· ∈ set2))
  let union := setOfList (set1 ++ set2)
  if union.length = 0 then none
  else some (minOne ⟨intersection.length, union.length⟩)

/-- JS `x > q` for a number `x` that may be `NaN`: `NaN > q` is `false`. -/
def simGt (x : Option Score) (q : Score) : Bool :=
  match x with
  | none => false
  | some v => scoreLt q v

/-! ### `findRelatedKeywords` -/

/-- The metadata value of a keyword-map entry as consumed by
`findRelatedKeywords` and `processInternalLinks`: `{url, isSingleWord}`. -/
structure KeywordMeta where
  url : Str
  isSingleWord : Bool
deriving DecidableEq, Repr

/-- The keyword `Map` passed to the engine, as an insertion-ordered
association list (JS `Map` iteration follows insertion order). -/
abbrev KwMap := List (Str × KeywordMeta)

/-- The match record `{key, url, score}` returned by
`findRelatedKeywords`. -/
structure KwMatch where
  key : Str
  url : Str
  score : Score
deriving DecidableEq, Repr

/-- The Jaccard score of the phrase's stem set against a keyword's stem set
(`intersection.size / union.size` in the loop body of
`findRelatedKeywords`). -/
def frkScore (phraseStems : List Str) (keyword : Str) : Score :=
  ⟨(setOfList (phraseStems.filter
      (· ∈ setOfList ((jsTokenize keyword).map cachedStem)))).length,
   (setOfList (phraseStems ++ setOfList ((jsTokenize keyword).map cachedStem))).length⟩

/-- The entry loop of `findRelatedKeywords`: single-word keywords
short-circuit on exact equality of the lower-cased phrase with the stored
keyword; multi-word keywords update the running best Jaccard score (strict
improvement only); at the end the best match is returned when its score
reaches `0.8`.  The source recomputes the phrase's stem set inside the loop;
it is constant, so it is passed in.  The union behind `frkScore` is
non-empty whenever the keyword tokenizes non-trivially, so the JS division
never yields `NaN` here. -/
def frkLoop (phrase : Str) (phraseStems : List Str) :
    KwMap → Option KwMatch → Score → Option KwMatch
  | [], bestMatch, bestScore => if scoreLe ⟨4, 5⟩ bestScore then bestMatch else none
  | (keyword, metadata) :: rest, bestMatch, bestScore =>
    if metadata.isSingleWord then
      if toLowerStr phrase = keyword then some ⟨keyword, metadata.url, ⟨1, 1⟩⟩
      else frkLoop phrase phraseStems rest bestMatch bestScore
    else if jsTokenize keyword = [] then frkLoop phrase phraseStems rest bestMatch bestScore
    else if scoreLt bestScore (frkScore phraseStems keyword) then
      frkLoop phrase phraseStems rest
        (some ⟨keyword, metadata.url, frkScore phraseStems keyword⟩)
        (frkScore phraseStems keyword)
    else frkLoop phrase phraseStems rest bestMatch bestScore

/-- `findRelatedKeywords` from the source: phrases with no word tokens are
rejected up front; otherwise the entry loop runs with no best match and best
score `0`. -/
def findRelatedKeywords (phrase : Str) (sitemapKeywords : KwMap) : Option KwMatch :=
  if jsTokenize (toLowerStr phrase) = [] then none
  else frkLoop phrase (setOfList ((jsTokenize (toLowerStr phrase)).map cachedStem))
    sitemapKeywords none ⟨0, 1⟩

/-! ### `getContext` -/

/-- `getContext` from the source: the first match of the regex
`[^.!?]*?<phrase>[^.!?]*` over the content, trimmed.  With the phrase
escaped (hence matched literally), the leftmost match runs from just after
the last sentence terminator preceding the first occurrence of the phrase,
through that occurrence, greedily up to the next terminator; there is no
match exactly when the phrase does not occur.  The escaping keeps the
constructed pattern well formed, so the source's `catch` fallback is
unreachable. -/
def getContext (content phrase : Str) : Str :=
  match indexOfSub? content phrase with
  | none => []
  | some p0 =>
    let s :=
      match lastTermIdx? (content.take p0) with
      | some j => j + 1
      | none => 0
    let e := p0 + phrase.length + firstTermIdxFrom (content.drop (p0 + phrase.length))
    jsTrim ((content.drop s).take (e - s))

/-! ### `extractPhrasesFromContent` -/

/-- The word filter of `extractPhrasesFromContent`: keep words longer than
one character that carry no markdown-bracket fragment, no `/`, and are not
purely `[0-9-]`. -/
def wordFilterOk (w : Str) : Bool :=
  decide (1 < w.length) && !startsWithL w ['['] && !startsWithL w ['('] &&
    !endsWithL w [']'] && !endsWithL w [')'] && !containsChar w '/' &&
    !w.all (fun c => ('0' ≤ c && c ≤ '9') || c = '-')

/-- `words.slice(i, i+n).join(' ')`. -/
def joinSpace : List Str → Str
  | [] => []
  | [w] => w
  | w :: ws => w ++ ' ' :: joinSpace ws

/-- The n-gram pass of `extractPhrasesFromContent`: for every index, first a
3-word phrase (minimum length 5), then a 2-word phrase (minimum length 4),
added to the phrase set. -/
def gramPass (words : List Str) (acc : List Str) : List Str :=
  (List.range words.length).foldl
    (fun acc i =>
      let acc :=
        if i + 2 < words.length then
          let threeWordPhrase := joinSpace ((words.drop i).take 3)
          if 5 ≤ threeWordPhrase.length then insertUniq acc threeWordPhrase else acc
        else acc
      if i + 1 < words.length then
        let twoWordPhrase := joinSpace ((words.drop i).take 2)
        if 4 ≤ twoWordPhrase.length then insertUniq acc twoWordPhrase else acc
      else acc)
    acc

/-- The single-word pass of `extractPhrasesFromContent`: words of length at
least 5, without `.`, starting with a capital letter (`/^[A-Z]/`). -/
def singlePass (words : List Str) (acc : List Str) : List Str :=
  words.foldl
    (fun acc word =>
      if decide (5 ≤ word.length) && !containsChar word '.' &&
          (match word with
           | c :: _ => 'A' ≤ c && c ≤ 'Z'
           | [] => false) then
        insertUniq acc word
      else acc)
    acc

/-- `extractPhrasesFromContent` from the source: split into sentences on
`[.!?]+`, strip markdown links, raw URLs and bold markers, filter words,
then collect 2- and 3-word phrases and significant capitalized single words
into an insertion-ordered set. -/
def extractPhrasesFromContent (content : Str) : List Str :=
  let sentences := ((splitRunsBy isTermChar content).map jsTrim).filter (· ≠ [])
  sentences.foldl
    (fun phrases sentence =>
      let cleanSentence := removeBoldKeep (removeUrls (stripLinksLazy sentence))
      let words := (splitWsRuns cleanSentence).filter wordFilterOk
      singlePass words (gramPass words phrases))
    []

/-- Stable insertion of a phrase after all phrases of length at least its
own: the engine's `phrases.sort((a, b) => b.length - a.length)` (a stable
sort, longest first). -/
def insertByLenDesc (x : Str) : List Str → List Str
  | [] => [x]
  | y :: ys => if x.length ≤ y.length then y :: insertByLenDesc x ys else x :: y :: ys

def sortByLenDesc (l : List Str) : List Str :=
  l.foldl (fun acc x => insertByLenDesc x acc) []

/-! ### `processInternalLinks` -/

/-- One accepted insertion, instrumented with the matched keyword `key`
(the engine records it in `linkedKeywords`; `found_links` keeps only the
phrase and the url, obtained by projection below). -/
structure Inserted where
  key : Str
  phrase : Str
  url : Str
deriving DecidableEq, Repr

/-- The engine state threaded through phrase and line processing:
`currentLine`, the occupied-span list `linkPositions`, the case-insensitive
`linkedKeywords` record, the accepted insertions (whose projection is
`addedLinks`), the `uniqueUrls` set, and the `totalMatches` counter. -/
structure PState where
  line : Str
  linkPositions : List Span
  linkedKeywords : List Str
  inserted : List Inserted
  uniqueUrls : List Str
  total : Nat
deriving Repr

/-- `isPositionSafe` from the source: a candidate `[start, end]` is safe
when it neither starts inside, ends inside, nor contains any recorded
span. -/
def isPositionSafe (linkPositions : List Span) (start stop : Nat) : Bool :=
  !linkPositions.any fun pos =>
    (pos.start ≤ start && start ≤ pos.stop) ||
    (pos.start ≤ stop && stop ≤ pos.stop) ||
    (start ≤ pos.start && pos.stop ≤ stop)

/-- The check applied to single-word phrases: if the word sits next to a
neighbour with which it forms a phrase similar to the keyword (similarity
strictly above 0.5), the candidate is skipped.  `true` means skip. -/
def singleWordSkip (key currentLine phrase : Str) : Bool :=
  let surroundingText := getContext currentLine phrase
  let words := splitWsRuns surroundingText
  match words.findIdx? (fun w => containsSub (toLowerStr w) (toLowerStr phrase)) with
  | none => false
  | some i =>
    let prevWord := if 0 < i then words.getD (i - 1) [] else []
    let nextWord := if i < words.length - 1 then words.getD (i + 1) [] else []
    (prevWord ≠ [] && simGt (calculateSemanticSimilarity (prevWord ++ ' ' :: phrase) key) ⟨1, 2⟩) ||
    (nextWord ≠ [] && simGt (calculateSemanticSimilarity (phrase ++ ' ' :: nextWord) key) ⟨1, 2⟩)

/-- Whether a phrase occurrence sits entirely inside one of the line's bold
formats (`isInMarkdown` in the source; computed there before the keyword
lookup but only consumed at insertion time, so hoisting it to the insertion
is unobservable). -/
def isInMarkdownFmt (markdownFormats : List BoldFmt) (phraseIndex len : Nat) : Bool :=
  markdownFormats.any fun format =>
    format.start ≤ phraseIndex && phraseIndex + len ≤ format.stop

/-- The markdown link text created for an accepted match: bold-wrapped when
the phrase sits inside bold formatting. -/
def mkLink (isInMarkdown : Bool) (phrase url : Str) : Str :=
  if isInMarkdown then
    '*' :: '*' :: '[' :: phrase ++ ']' :: '(' :: url ++ [')', '*', '*']
  else
    '[' :: phrase ++ ']' :: '(' :: url ++ [')']

/-- Perform an accepted insertion: splice the link into the current line at
the phrase occurrence, record the occupied span (computed from the global
`matchStart`), mark the keyword linked, append the link record, and update
the stats. -/
def insertLink (st : PState) (phraseIndex matchStart : Nat) (phrase : Str)
    (relatedKeyword : KwMatch) (isInMarkdown : Bool) : PState :=
  { line := st.line.take phraseIndex ++ mkLink isInMarkdown phrase relatedKeyword.url ++
      st.line.drop (phraseIndex + phrase.length)
    linkPositions := st.linkPositions ++
      [⟨matchStart, matchStart + (mkLink isInMarkdown phrase relatedKeyword.url).length⟩]
    linkedKeywords := st.linkedKeywords ++ [toLowerStr relatedKeyword.key]
    inserted := st.inserted ++ [⟨relatedKeyword.key, phrase, relatedKeyword.url⟩]
    uniqueUrls := insertUniq st.uniqueUrls relatedKeyword.url
    total := st.total + 1 }

/-- The body of the per-phrase loop of `processInternalLinks`, in source
order: find the first case-insensitive occurrence of the phrase in the
current line; check the span `[lineOffset + index, … + length]` against the
occupied spans; consult `findRelatedKeywords` and its `0.8` threshold;
reject already-linked keywords; apply the single-word neighbourhood check;
require a non-empty context; then perform the insertion. -/
def processPhrase (sitemapKeywords : KwMap) (lineOffset : Nat)
    (markdownFormats : List BoldFmt) (st : PState) (phrase : Str) : PState :=
  match indexOfSub? (toLowerStr st.line) (toLowerStr phrase) with
  | none => st
  | some phraseIndex =>
    if !isPositionSafe st.linkPositions (lineOffset + phraseIndex)
        (lineOffset + phraseIndex + phrase.length) then st
    else
      match findRelatedKeywords phrase sitemapKeywords with
      | none => st
      | some relatedKeyword =>
        if !scoreLe ⟨4, 5⟩ relatedKeyword.score then st
        else if toLowerStr relatedKeyword.key ∈ st.linkedKeywords then st
        else if !containsChar phrase ' ' &&
            singleWordSkip relatedKeyword.key st.line phrase then st
        else if getContext st.line phrase = [] then st
        else
          insertLink st phraseIndex (lineOffset + phraseIndex) phrase relatedKeyword
            (isInMarkdownFmt markdownFormats phraseIndex phrase.length)

/-- Whether a line is passed through as a header: its trimmed form starts
with `#`. -/
def isHeaderLine (line : Str) : Bool := startsWithL (jsTrim line) ['#']

/-- Process one content line: header lines pass through unchanged;
otherwise scan bold formats, extract and sort candidate phrases, and fold
the per-phrase loop over them.  Returns the processed line and the updated
global state. -/
def processLine (sitemapKeywords : KwMap) (lineOffset : Nat) (st : PState)
    (line : Str) : Str × PState :=
  if isHeaderLine line then (line, st)
  else
    let markdownFormats := scanBold line
    let phrases := sortByLenDesc (extractPhrasesFromContent line)
    let st' := phrases.foldl
      (processPhrase sitemapKeywords lineOffset markdownFormats) { st with line := line }
    (st'.line, st')

/-- Process all lines, threading the global state and the running character
position (`currentPosition` advances by the original line length plus one
for the newline). -/
def processLines (sitemapKeywords : KwMap) :
    Nat → PState → List Str → List Str × PState
  | _, st, [] => ([], st)
  | pos, st, l :: ls =>
    let (l', st') := processLine sitemapKeywords pos st l
    let (rest, st'') := processLines sitemapKeywords (pos + l.length + 1) st' ls
    (l' :: rest, st'')

/-- Concatenation of processed lines, each followed by `'\n'` — the
engine's `processedContent += currentLine + '\n'` accumulator. -/
def concatNl : List Str → Str
  | [] => []
  | l :: ls => l ++ '\n' :: concatNl ls

/-- The full run of the engine body on a content string and keyword map:
seed the occupied spans from the whole content, split into lines, process
them, and `trimEnd` the concatenation. -/
def runProcess (content : Str) (sitemapKeywords : KwMap) : List Str × PState :=
  processLines sitemapKeywords 0
    ⟨[], scanLinks content, [], [], [], 0⟩ (splitOnChar '\n' content)

structure LinkRec where
  keyword : String
  url : String
deriving DecidableEq, Repr

structure LinkStats where
  totalMatches : Nat
  uniqueUrls : Nat
deriving DecidableEq, Repr

/-- The result object of `processInternalLinks`. -/
structure ProcessResult where
  found_links : List LinkRec
  updated_content : String
  stats : LinkStats
deriving DecidableEq, Repr

/-- Assemble the result object from a successful run:
`found_links` records `{keyword: phrase, url}` per insertion,
`updated_content` is the trimmed concatenation, and the stats are the match
counter and the size of the `uniqueUrls` set. -/
def processRun (content : String) (sitemapKeywords : KwMap) : ProcessResult :=
  { found_links := (runProcess content.data sitemapKeywords).2.inserted.map
      fun r => ⟨String.mk r.phrase, String.mk r.url⟩
    updated_content :=
      String.mk (jsTrimEnd (concatNl (runProcess content.data sitemapKeywords).1))
    stats := ⟨(runProcess content.data sitemapKeywords).2.total,
      (runProcess content.data sitemapKeywords).2.uniqueUrls.length⟩ }

/-- The instrumented insertion trace of a run (each record also carries the
matched keyword `key`, which the surface result omits). -/
def insertedTrace (content : String) (sitemapKeywords : KwMap) : List Inserted :=
  (runProcess content.data sitemapKeywords).2.inserted

/-- The processed line sequence of a run, before joining and trimming. -/
def processedLinesOf (content : String) (sitemapKeywords : KwMap) : List Str :=
  (runProcess content.data sitemapKeywords).1

/-- The body of `processInternalLinks` as a fallible computation: the
argument models the JS parameter, which the source checks with
`instanceof Map`, throwing `'Invalid sitemap data format'` otherwise
(`none` models a non-`Map` argument). -/
def processInternalLinksCore (content : String) (arg : Option KwMap) :
    Except String ProcessResult :=
  match arg with
  | none => Except.error "Invalid sitemap data format"
  | some sitemapKeywords => Except.ok (processRun content sitemapKeywords)

/-- `processInternalLinks` from the source: the body wrapped in the
top-level `try`/`catch` whose handler returns the original content with
empty links and zeroed stats. -/
def processInternalLinks (content : String) (arg : Option KwMap) : ProcessResult :=
  match processInternalLinksCore content arg with
  | Except.ok r => r
  | Except.error _ => ⟨[], content, ⟨0, 0⟩⟩

/-! ### `readSitemap` (keyword derivation)

`readSitemap` fetches and parses the sitemap, extracts the page URLs, and
builds the keyword `Map`.  Fetching/XML parsing and `new URL` are external
capabilities; a collected URL is therefore modelled as its `href` together
with its already-parsed `pathname`. -/

/-- Modelled from the spec: a collected page URL as seen by `readSitemap`
after the external `new URL(url)` parse — the original string (`href`)
and its `pathname`. -/
structure UrlRec where
  href : Str
  pathname : Str
deriving DecidableEq, Repr

/-- The metadata stored by this `readSitemap` variant:
`{url, isHyphenated}`. -/
structure MetaHyph where
  url : Str
  isHyphenated : Bool
deriving DecidableEq, Repr

/-- JS `Map.set` on an insertion-ordered association list: an existing key
keeps its position and gets the new value; a new key is appended. -/
def jsMapSet (m : List (Str × MetaHyph)) (k : Str) (v : MetaHyph) :
    List (Str × MetaHyph) :=
  if m.any (fun e => e.1 = k) then
    m.map fun e => if e.1 = k then (k, v) else e
  else m ++ [(k, v)]

/-- JS `Map.get`. -/
def mapGet (m : List (Str × MetaHyph)) (k : Str) : Option MetaHyph :=
  (m.find? (fun e => e.1 = k)).map (·.2)

/-- The source's global replacement of `-` by `' '` on the path segment. -/
def hyphensToSpaces (s : Str) : Str :=
  s.map fun c => if c = '-' then ' ' else c

/-- `new URL(url).pathname.split('/').pop()`: the last piece of the
`'/'`-split (the split is never empty, so `pop` always yields a piece;
an empty piece is falsy and the URL is skipped). -/
def popSegment (pathname : Str) : Str :=
  (splitOnChar '/' pathname).getLastD []

/-- The per-URL step of `readSitemap`'s keyword loop: skip URLs whose final
path piece is empty; otherwise store the hyphen-to-space form of the
segment, and additionally the raw hyphenated segment when it contains a
hyphen.  (The per-URL `try`/`catch` guards only the external `new URL`
parse, which the pre-parsed `UrlRec` model cannot fail.) -/
def readSitemapStep (keywords : List (Str × MetaHyph)) (u : UrlRec) :
    List (Str × MetaHyph) :=
  let pathSegment := popSegment u.pathname
  if pathSegment = [] then keywords
  else
    let keyword := hyphensToSpaces pathSegment
    let keywords :=
      jsMapSet keywords keyword ⟨u.href, containsChar pathSegment '-'⟩
    if containsChar pathSegment '-' then
      jsMapSet keywords pathSegment ⟨u.href, true⟩
    else keywords

/-- The keyword map built by `readSitemap` from the collected URLs (in the
URL set's iteration order). -/
def readSitemapKeywords (urls : List UrlRec) : List (Str × MetaHyph) :=
  urls.foldl readSitemapStep []

/-! ### Direct characterization of the keyword index

A declarative description of the lookup behaviour of the map built by
`readSitemapKeywords`, to be proved equal to it: a URL derives the
hyphen-to-space form of its final path piece (when non-empty), plus the raw
segment itself when hyphenated; because `Map.set` overwrites, a lookup is
answered by the last URL (in iteration order) deriving the keyword. -/

/-- The final path piece of a URL (the piece `pop`ped by `readSitemap`). -/
def segOf (u : UrlRec) : Str := popSegment u.pathname

/-- The spaced keyword derived from a URL. -/
def spacedOf (u : UrlRec) : Str := hyphensToSpaces (segOf u)

/-- Whether a URL derives the keyword `kw`. -/
def derivesKw (u : UrlRec) (kw : Str) : Bool :=
  segOf u ≠ [] && (kw = spacedOf u || (containsChar (segOf u) '-' && kw = segOf u))

/-- The metadata a URL stores under the keyword `kw`. -/
def metaForAmended (u : UrlRec) (kw : Str) : MetaHyph :=
  if kw = spacedOf u then ⟨u.href, containsChar (segOf u) '-'⟩ else ⟨u.href, true⟩

/-- Declarative lookup: the last URL deriving `kw` answers, with the
metadata it stores under `kw`. -/
def lookupAmended (urls : List UrlRec) (kw : Str) : Option MetaHyph :=
  (urls.reverse.find? (fun u => derivesKw u kw)).map (fun u => metaForAmended u kw)

/-! ### `extractUrlsFromSitemap` (recursive sitemap traversal)

`fetchAndParseSitemap` is an external fetch-and-parse capability: it either
throws or produces a parsed document exposing `sitemapindex.sitemap[].loc`
and `urlset.url[].loc`.  The recursion of `extractUrlsFromSitemap` carries
no visited set and no depth bound, so it is rendered with a fuel parameter:
`none` means that the given recursion depth did not suffice — if no fuel
suffices, the source recursion never returns. -/

/-- Modelled from the spec: a parsed sitemap document (the xml2js result
shape consumed by the source): `sitemapindex`, when present, carries the
`loc` of each nested sitemap entry; `urlset`, when present, carries each
entry's optional `loc[0]`. -/
structure SitemapDoc where
  sitemapindex : Option (List String)
  urlset : Option (List (Option String))
deriving Repr

/-- JS `Set.add` for the URL set. -/
def insertUniqS (l : List String) (x : String) : List String :=
  if x ∈ l then l else l ++ [x]

/-- `extractUrlsFromSitemap` from the source, with fuel bounding the
recursion depth: first every nested sitemap of a `sitemapindex` is fetched
(a fetch/parse error is thrown, i.e. `Except.error`) and recursively
extracted, then the `urlset` entries with a truthy `loc[0]` are added. -/
def extractUrlsFromSitemap (fetch : String → Except String SitemapDoc) :
    Nat → SitemapDoc → Option (Except String (List String))
  | 0, _ => none
  | n + 1, sitemapData =>
    let afterNested :=
      (sitemapData.sitemapindex.getD []).foldl
        (fun acc nestedUrl =>
          match acc with
          | none => none
          | some (Except.error e) => some (Except.error e)
          | some (Except.ok urls) =>
            match fetch nestedUrl with
            | Except.error e => some (Except.error e)
            | Except.ok nestedData =>
              match extractUrlsFromSitemap fetch n nestedData with
              | none => none
              | some (Except.error e) => some (Except.error e)
              | some (Except.ok nestedUrls) =>
                some (Except.ok (nestedUrls.foldl insertUniqS urls)))
        (some (Except.ok []))
    match afterNested with
    | none => none
    | some (Except.error e) => some (Except.error e)
    | some (Except.ok urls) =>
      some (Except.ok
        ((sitemapData.urlset.getD []).foldl
          (fun us entry =>
            match entry with
            | some loc => insertUniqS us loc
            | none => us)
          urls))

/-! ### A cyclic sitemap-of-sitemaps

The self-referencing scenario: a sitemap document whose `sitemapindex`
lists the document's own URL, and the fetch oracle that returns that
document for it. -/

/-- A sitemap index document that lists its own URL as its only nested
sitemap. -/
def selfDoc : SitemapDoc := ⟨some ["https://example.com/sitemap.xml"], none⟩

/-- The fetch-and-parse oracle of the cyclic scenario: fetching the
sitemap URL always yields the self-referencing document again. -/
def fetchSelf : String → Except String SitemapDoc :=
  fun _ => Except.ok selfDoc

/-! ### Engine lemmas -/

theorem insertUniq_length_le (l : List Str) (x : Str) :
    l.length ≤ (insertUniq l x).length := by
  unfold insertUniq
  split
  · exact le_rfl
  · simp

theorem foldl_insertUniq_length_le (l : List Str) (acc : List Str) :
    acc.length ≤ (l.foldl insertUniq acc).length := by
  induction l generalizing acc with
  | nil => exact le_rfl
  | cons x xs ih => exact le_trans (insertUniq_length_le acc x) (ih _)

theorem setOfList_eq_nil_iff (l : List Str) : setOfList l = [] ↔ l = [] := by
  constructor
  · intro h
    cases l with
    | nil => rfl
    | cons x xs =>
      exfalso
      have h1 : (insertUniq [] x).length ≤ (setOfList (x :: xs)).length := by
        simpa [setOfList] using foldl_insertUniq_length_le xs (insertUniq [] x)
      rw [h] at h1
      simp [insertUniq] at h1
  · rintro rfl
    rfl

theorem splitOnChar_ne_nil (sep : Char) (l : Str) : splitOnChar sep l ≠ [] := by
  cases l with
  | nil => simp [splitOnChar]
  | cons c rest =>
    simp only [splitOnChar]
    split
    · simp
    · split <;> simp

theorem concatNl_splitOnChar (l : Str) :
    concatNl (splitOnChar '\n' l) = l ++ ['\n'] := by
  induction l with
  | nil => rfl
  | cons c rest ih =>
    unfold splitOnChar
    split
    · rename_i h
      rw [h]
      simp [concatNl, ih]
    · split
      · rename_i heq
        exact absurd heq (splitOnChar_ne_nil _ _)
      · rename_i hd tl heq
        rw [heq] at ih
        simp only [concatNl] at ih ⊢
        simp [ih]

theorem dropWhile_dropWhile_self (p : Char → Bool) (l : Str) :
    (l.dropWhile p).dropWhile p = l.dropWhile p := by
  induction l with
  | nil => rfl
  | cons c rest ih =>
    by_cases h : p c
    · simp [List.dropWhile_cons, h, ih]
    · simp [List.dropWhile_cons, h]

theorem jsTrimEnd_append_newline (l : Str) : jsTrimEnd (l ++ ['\n']) = jsTrimEnd l := by
  have h : isWsChar '\n' = true := rfl
  simp [jsTrimEnd, List.reverse_append, List.dropWhile_cons, h]

theorem jsTrimEnd_idem (l : Str) : jsTrimEnd (jsTrimEnd l) = jsTrimEnd l := by
  simp [jsTrimEnd, List.reverse_reverse, dropWhile_dropWhile_self]

/-- Each phrase step either leaves the state untouched or performs exactly
one insertion: it appends one record whose keyword was not yet linked,
marks that keyword linked, and bumps the match counter. -/
theorem processPhrase_spec (m : KwMap) (off : Nat) (fmts : List BoldFmt)
    (st : PState) (ph : Str) :
    processPhrase m off fmts st ph = st ∨
    ∃ key phr url,
      toLowerStr key ∉ st.linkedKeywords ∧
      (processPhrase m off fmts st ph).inserted = st.inserted ++ [⟨key, phr, url⟩] ∧
      (processPhrase m off fmts st ph).linkedKeywords
          = st.linkedKeywords ++ [toLowerStr key] ∧
      (processPhrase m off fmts st ph).total = st.total + 1 := by
  unfold processPhrase
  split
  · exact Or.inl rfl
  · split
    · exact Or.inl rfl
    · split
      · exact Or.inl rfl
      · rename_i relatedKeyword _
        split
        · exact Or.inl rfl
        · split
          · exact Or.inl rfl
          · rename_i hmem
            split
            · exact Or.inl rfl
            · split
              · exact Or.inl rfl
              · exact Or.inr ⟨relatedKeyword.key, ph, relatedKeyword.url, hmem, rfl, rfl, rfl⟩

theorem processPhrase_total_mono (m : KwMap) (off : Nat) (fmts : List BoldFmt)
    (st : PState) (ph : Str) :
    st.total ≤ (processPhrase m off fmts st ph).total := by
  rcases processPhrase_spec m off fmts st ph with he | ⟨_, _, _, _, _, _, ht⟩
  · rw [he]
  · rw [ht]
    omega

theorem processPhrase_eq_of_total (m : KwMap) (off : Nat) (fmts : List BoldFmt)
    (st : PState) (ph : Str)
    (h : (processPhrase m off fmts st ph).total = st.total) :
    processPhrase m off fmts st ph = st := by
  rcases processPhrase_spec m off fmts st ph with he | ⟨_, _, _, _, _, _, ht⟩
  · exact he
  · rw [h] at ht
    omega

theorem foldl_processPhrase_total_mono (m : KwMap) (off : Nat) (fmts : List BoldFmt)
    (l : List Str) (st : PState) :
    st.total ≤ (l.foldl (processPhrase m off fmts) st).total := by
  induction l generalizing st with
  | nil => exact le_rfl
  | cons p ps ih =>
    exact le_trans (processPhrase_total_mono m off fmts st p)
      (ih (processPhrase m off fmts st p))

theorem foldl_processPhrase_eq_of_total (m : KwMap) (off : Nat) (fmts : List BoldFmt)
    (l : List Str) (st : PState)
    (h : (l.foldl (processPhrase m off fmts) st).total = st.total) :
    l.foldl (processPhrase m off fmts) st = st := by
  induction l generalizing st with
  | nil => rfl
  | cons p ps ih =>
    simp only [List.foldl_cons] at h ⊢
    have h1 : st.total ≤ (processPhrase m off fmts st p).total :=
      processPhrase_total_mono m off fmts st p
    have h2 := foldl_processPhrase_total_mono m off fmts ps (processPhrase m off fmts st p)
    have h3 : (processPhrase m off fmts st p).total = st.total := by omega
    rw [processPhrase_eq_of_total m off fmts st p h3] at h ⊢
    exact ih st h

theorem processLine_total_mono (m : KwMap) (off : Nat) (st : PState) (l : Str) :
    st.total ≤ (processLine m off st l).2.total := by
  by_cases hh : isHeaderLine l
  · simp [processLine, hh]
  · simpa [processLine, hh] using
      foldl_processPhrase_total_mono m off (scanBold l)
        (sortByLenDesc (extractPhrasesFromContent l)) { st with line := l }

theorem processLine_fst_of_total (m : KwMap) (off : Nat) (st : PState) (l : Str)
    (h : (processLine m off st l).2.total = st.total) :
    (processLine m off st l).1 = l := by
  by_cases hh : isHeaderLine l
  · simp [processLine, hh]
  · simp only [processLine, hh, Bool.false_eq_true, if_false] at h ⊢
    have h2 := foldl_processPhrase_eq_of_total m off (scanBold l)
      (sortByLenDesc (extractPhrasesFromContent l)) { st with line := l } h
    rw [h2]

/-- Header lines pass through `processLine` unchanged. -/
theorem processLine_header (m : KwMap) (off : Nat) (st : PState) (l : Str)
    (h : isHeaderLine l = true) : (processLine m off st l).1 = l := by
  simp [processLine, h]

theorem processLines_cons_fst (m : KwMap) (pos : Nat) (st : PState) (l : Str)
    (ls : List Str) :
    (processLines m pos st (l :: ls)).1 =
      (processLine m pos st l).1 ::
        (processLines m (pos + l.length + 1) (processLine m pos st l).2 ls).1 := rfl

theorem processLines_cons_snd (m : KwMap) (pos : Nat) (st : PState) (l : Str)
    (ls : List Str) :
    (processLines m pos st (l :: ls)).2 =
      (processLines m (pos + l.length + 1) (processLine m pos st l).2 ls).2 := rfl

theorem processLines_total_mono (m : KwMap) (ls : List Str) (pos : Nat) (st : PState) :
    st.total ≤ (processLines m pos st ls).2.total := by
  induction ls generalizing pos st with
  | nil => exact le_rfl
  | cons l ls ih =>
    rw [processLines_cons_snd]
    exact le_trans (processLine_total_mono m pos st l) (ih _ _)

theorem processLines_fst_of_total (m : KwMap) (ls : List Str) (pos : Nat) (st : PState)
    (h : (processLines m pos st ls).2.total = st.total) :
    (processLines m pos st ls).1 = ls := by
  induction ls generalizing pos st with
  | nil => rfl
  | cons l ls ih =>
    rw [processLines_cons_snd] at h
    rw [processLines_cons_fst]
    have h1 := processLine_total_mono m pos st l
    have h2 := processLines_total_mono m ls (pos + l.length + 1) (processLine m pos st l).2
    have h3 : (processLine m pos st l).2.total = st.total := by omega
    have h4 : (processLines m (pos + l.length + 1) (processLine m pos st l).2 ls).2.total
        = (processLine m pos st l).2.total := by omega
    rw [processLine_fst_of_total m pos st l h3, ih _ _ h4]

theorem processLines_header_preserved (m : KwMap) (ls : List Str) :
    ∀ (pos : Nat) (st : PState) (i : Nat) (l0 : Str),
      ls[i]? = some l0 → isHeaderLine l0 = true →
      (processLines m pos st ls).1[i]? = some l0 := by
  induction ls with
  | nil => intro pos st i l0 h _; simp at h
  | cons l ls ih =>
    intro pos st i l0 h hhdr
    rw [processLines_cons_fst]
    cases i with
    | zero =>
      simp only [List.getElem?_cons_zero, Option.some.injEq] at h
      obtain rfl : l = l0 := h
      simp [processLine_header m pos st l hhdr]
    | succ i =>
      simp only [List.getElem?_cons_succ] at h ⊢
      exact ih _ _ i l0 h hhdr

/-- A run that accepts no matches returns the content `trimEnd`-ed: the
lines pass through unchanged, are re-joined with `'\n'`, and the trailing
newline (plus any trailing whitespace of the content) is trimmed. -/
theorem zero_total_updated (c : String) (m : KwMap)
    (h : (processRun c m).stats.totalMatches = 0) :
    (processRun c m).updated_content = String.mk (jsTrimEnd c.data) := by
  have h0 : (runProcess c.data m).2.total = 0 := h
  have hl : (runProcess c.data m).1 = splitOnChar '\n' c.data :=
    processLines_fst_of_total m (splitOnChar '\n' c.data) 0 _ h0
  show String.mk (jsTrimEnd (concatNl (runProcess c.data m).1)) = _
  rw [hl, concatNl_splitOnChar, jsTrimEnd_append_newline]

/-! ### Keyword-dedup invariant (insertion trace) -/

/-- The dedup invariant carried by the engine state: the lower-cased keys of
the accepted insertions are pairwise distinct, and each of them has been
recorded in `linkedKeywords`. -/
def TraceInv (st : PState) : Prop :=
  (st.inserted.map fun r => toLowerStr r.key).Nodup ∧
  ∀ x ∈ st.inserted.map fun r => toLowerStr r.key, x ∈ st.linkedKeywords

theorem processPhrase_traceInv (m : KwMap) (off : Nat) (fmts : List BoldFmt)
    (st : PState) (ph : Str) (h : TraceInv st) :
    TraceInv (processPhrase m off fmts st ph) := by
  rcases processPhrase_spec m off fmts st ph with he | ⟨k, p, u, hmem, hins, hlink, _⟩
  · rw [he]
    exact h
  · constructor
    · rw [hins]
      simp only [List.map_append, List.map_cons, List.map_nil]
      rw [List.nodup_append]
      refine ⟨h.1, List.nodup_singleton _, ?_⟩
      intro a ha hb
      simp only [List.mem_singleton] at hb
      subst hb
      exact hmem (h.2 _ ha)
    · intro x hx
      rw [hins] at hx
      rw [hlink]
      simp only [List.map_append, List.map_cons, List.map_nil, List.mem_append,
        List.mem_singleton] at hx
      rcases hx with hx | hx
      · exact List.mem_append_left _ (h.2 x hx)
      · subst hx
        exact List.mem_append_right _ (List.mem_singleton_self _)

theorem foldl_processPhrase_traceInv (m : KwMap) (off : Nat) (fmts : List BoldFmt)
    (l : List Str) (st : PState) (h : TraceInv st) :
    TraceInv (l.foldl (processPhrase m off fmts) st) := by
  induction l generalizing st with
  | nil => exact h
  | cons p ps ih => exact ih _ (processPhrase_traceInv m off fmts st p h)

theorem processLine_traceInv (m : KwMap) (off : Nat) (st : PState) (l : Str)
    (h : TraceInv st) : TraceInv (processLine m off st l).2 := by
  by_cases hh : isHeaderLine l
  · simpa [processLine, hh] using h
  · simp only [processLine, hh, Bool.false_eq_true, if_false]
    exact foldl_processPhrase_traceInv m off (scanBold l)
      (sortByLenDesc (extractPhrasesFromContent l)) { st with line := l } ⟨h.1, h.2⟩

theorem processLines_traceInv (m : KwMap) (ls : List Str) (pos : Nat) (st : PState)
    (h : TraceInv st) : TraceInv (processLines m pos st ls).2 := by
  induction ls generalizing pos st with
  | nil => exact h
  | cons l ls ih =>
    rw [processLines_cons_snd]
    exact ih _ _ (processLine_traceInv m pos st l h)

/-- The lower-cased keys of the accepted insertions of any run are pairwise
distinct. -/
theorem insertedTrace_key_nodup (c : String) (m : KwMap) :
    ((insertedTrace c m).map fun r => toLowerStr r.key).Nodup :=
  (processLines_traceInv m (splitOnChar '\n' c.data) 0 _ ⟨by simp, by simp⟩).1

/-! ### `readSitemap` lemmas -/

theorem mapGet_cons (x : Str × MetaHyph) (l : List (Str × MetaHyph)) (k' : Str) :
    mapGet (x :: l) k' = if x.1 = k' then some x.2 else mapGet l k' := by
  unfold mapGet
  by_cases h : x.1 = k'
  · rw [List.find?_cons_of_pos _ (by simp [h])]
    simp [h]
  · rw [List.find?_cons_of_neg _ (by simp [h])]
    simp [h]

theorem mapGet_mapOverwrite (m : List (Str × MetaHyph)) (k : Str) (v : MetaHyph)
    (k' : Str) (hne : k' ≠ k) :
    mapGet (m.map fun e => if e.1 = k then (k, v) else e) k' = mapGet m k' := by
  induction m with
  | nil => rfl
  | cons e rest ih =>
    by_cases he : e.1 = k
    · simp [mapGet_cons, he, Ne.symm hne, ih]
    · simp [mapGet_cons, he, ih]

theorem mapGet_mapOverwrite_self (m : List (Str × MetaHyph)) (k : Str) (v : MetaHyph)
    (hany : m.any (fun e => e.1 = k) = true) :
    mapGet (m.map fun e => if e.1 = k then (k, v) else e) k = some v := by
  induction m with
  | nil => simp at hany
  | cons e rest ih =>
    by_cases he : e.1 = k
    · simp [mapGet_cons, he]
    · have hrest : rest.any (fun e => e.1 = k) = true := by
        simp only [List.any_cons, Bool.or_eq_true] at hany
        rcases hany with h | h
        · exact absurd (by simpa using h) he
        · exact h
      simp [mapGet_cons, he, ih hrest]

theorem mapGet_eq_none_of_not_any (m : List (Str × MetaHyph)) (k : Str)
    (hany : m.any (fun e => e.1 = k) = false) :
    mapGet m k = none := by
  induction m with
  | nil => rfl
  | cons e rest ih =>
    simp only [List.any_cons, Bool.or_eq_false_iff] at hany
    have he : ¬(e.1 = k) := by simpa using hany.1
    simp [mapGet_cons, he, ih hany.2]

theorem mapGet_append_single (m : List (Str × MetaHyph)) (k : Str) (v : MetaHyph)
    (k' : Str) :
    mapGet (m ++ [(k, v)]) k' =
      match mapGet m k' with
      | some w => some w
      | none => if k = k' then some v else none := by
  induction m with
  | nil => simp [mapGet_cons, mapGet]
  | cons e rest ih =>
    by_cases he : e.1 = k'
    · simp [List.cons_append, mapGet_cons, he]
    · simp [List.cons_append, mapGet_cons, he, ih]

/-- JS `Map.set` seen through `Map.get`: the written key reads back the new
value, every other key is unaffected. -/
theorem mapGet_jsMapSet (m : List (Str × MetaHyph)) (k : Str) (v : MetaHyph)
    (k' : Str) :
    mapGet (jsMapSet m k v) k' = if k' = k then some v else mapGet m k' := by
  unfold jsMapSet
  by_cases hany : m.any (fun e => e.1 = k) = true
  · rw [if_pos hany]
    by_cases hk : k' = k
    · subst hk
      rw [if_pos rfl]
      exact mapGet_mapOverwrite_self m k' v hany
    · rw [if_neg hk]
      exact mapGet_mapOverwrite m k v k' hk
  · rw [if_neg hany]
    rw [mapGet_append_single]
    by_cases hk : k' = k
    · subst hk
      rw [mapGet_eq_none_of_not_any m k' (Bool.not_eq_true _ ▸ hany)]
    · rw [if_neg hk]
      rcases hm : mapGet m k' with _ | w
      · show (if k = k' then some v else none) = none
        rw [if_neg (fun h => hk h.symm)]
      · rfl

theorem hyphensToSpaces_ne_of_hyphen (s : Str) :
    containsChar s '-' = true → hyphensToSpaces s ≠ s := by
  induction s with
  | nil => intro h; simp [containsChar] at h
  | cons c t ih =>
    intro h he
    simp only [hyphensToSpaces, List.map_cons] at he
    by_cases hc : c = '-'
    · subst hc
      injection he with h1 _
      rw [if_pos rfl] at h1
      exact absurd h1 (by decide)
    · injection he with _ h2
      have ht : containsChar t '-' = true := by
        simp only [containsChar, List.contains_cons, Bool.or_eq_true, beq_iff_eq] at h
        rcases h with h | h
        · exact absurd h.symm hc
        · exact h
      exact ih ht h2

theorem mapGet_readSitemapStep (m : List (Str × MetaHyph)) (u : UrlRec) (kw : Str) :
    mapGet (readSitemapStep m u) kw =
      if derivesKw u kw then some (metaForAmended u kw) else mapGet m kw := by
  unfold readSitemapStep
  by_cases hseg : popSegment u.pathname = []
  · rw [if_pos hseg, if_neg (by simp [derivesKw, segOf, hseg])]
  · rw [if_neg hseg]
    by_cases hhyp : containsChar (popSegment u.pathname) '-' = true
    · rw [if_pos hhyp]
      rw [mapGet_jsMapSet, mapGet_jsMapSet]
      by_cases hks : kw = popSegment u.pathname
      · rw [if_pos hks]
        have hne : kw ≠ hyphensToSpaces (popSegment u.pathname) := by
          rw [hks]
          exact fun hh => hyphensToSpaces_ne_of_hyphen _ hhyp hh.symm
        rw [if_pos (by simp [derivesKw, segOf, spacedOf, hseg, hhyp, hks])]
        unfold metaForAmended spacedOf segOf
        rw [if_neg hne]
      · rw [if_neg hks]
        by_cases hkw : kw = hyphensToSpaces (popSegment u.pathname)
        · rw [if_pos hkw]
          rw [if_pos (by simp [derivesKw, segOf, spacedOf, hseg, Or.inl hkw])]
          unfold metaForAmended spacedOf segOf
          rw [if_pos hkw, hhyp]
        · rw [if_neg hkw]
          rw [if_neg (by simp [derivesKw, segOf, spacedOf, hkw, hks])]
    · rw [if_neg hhyp]
      rw [mapGet_jsMapSet]
      by_cases hkw : kw = hyphensToSpaces (popSegment u.pathname)
      · rw [if_pos hkw]
        rw [if_pos (by simp [derivesKw, segOf, spacedOf, hseg, Or.inl hkw])]
        unfold metaForAmended spacedOf segOf
        rw [if_pos hkw]
      · rw [if_neg hkw]
        rw [if_neg (by simp [derivesKw, segOf, spacedOf, hkw, Bool.not_eq_true _ ▸ hhyp])]

theorem mapGet_foldl_readSitemapStep (urls : List UrlRec)
    (m : List (Str × MetaHyph)) (kw : Str) :
    mapGet (urls.foldl readSitemapStep m) kw =
      match urls.reverse.find? (fun u => derivesKw u kw) with
      | some u => some (metaForAmended u kw)
      | none => mapGet m kw := by
  induction urls generalizing m with
  | nil => rfl
  | cons u rest ih =>
    simp only [List.foldl_cons, List.reverse_cons]
    rw [ih, List.find?_append]
    rcases hf : rest.reverse.find? (fun u => derivesKw u kw) with _ | w
    · by_cases hd : derivesKw u kw
      · simp [mapGet_readSitemapStep, hd]
      · simp [mapGet_readSitemapStep, hd]
    · simp

/-! ### `findRelatedKeywords` lemmas -/

/-- With pairwise-distinct keys, a key determines its metadata. -/
theorem kwmap_value_unique (l : KwMap) (hnodup : (l.map Prod.fst).Nodup)
    (k : Str) (v1 v2 : KeywordMeta) (h1 : (k, v1) ∈ l) (h2 : (k, v2) ∈ l) :
    v1 = v2 := by
  induction l with
  | nil => simp at h1
  | cons e rest ih =>
    simp only [List.map_cons, List.nodup_cons] at hnodup
    rcases List.mem_cons.mp h1 with hh1 | ht1 <;> rcases List.mem_cons.mp h2 with hh2 | ht2
    · subst hh1
      injection hh2 with _ hv
      exact hv.symm
    · exfalso
      subst hh1
      exact hnodup.1 (List.mem_map.mpr ⟨(k, v2), ht2, rfl⟩)
    · exfalso
      subst hh2
      exact hnodup.1 (List.mem_map.mpr ⟨(k, v1), ht1, rfl⟩)
    · exact ih hnodup.2 ht1 ht2

/-- Any match returned by the entry loop comes from a single-word entry hit
by exact equality (score pinned to `1`), from a multi-word entry recorded as
best match, or from the incoming best match. -/
theorem frkLoop_result (phrase : Str) (ps : List Str) (l : KwMap) :
    ∀ (best : Option KwMatch) (bs : Score) (r : KwMatch),
      frkLoop phrase ps l best bs = some r →
      (∃ kw meta, (kw, meta) ∈ l ∧ meta.isSingleWord = true ∧
          toLowerStr phrase = kw ∧ r = ⟨kw, meta.url, ⟨1, 1⟩⟩) ∨
      (∃ kw meta, (kw, meta) ∈ l ∧ meta.isSingleWord = false ∧
          r.key = kw ∧ r.url = meta.url) ∨
      best = some r := by
  induction l with
  | nil =>
    intro best bs r hres
    unfold frkLoop at hres
    right; right
    split at hres
    · exact hres
    · exact absurd hres (by simp)
  | cons e rest ih =>
    intro best bs r hres
    obtain ⟨kw, meta⟩ := e
    unfold frkLoop at hres
    split at hres
    · rename_i hsingle
      split at hres
      · rename_i heq
        left
        refine ⟨kw, meta, List.mem_cons_self _ _, hsingle, heq, ?_⟩
        exact (Option.some.inj hres).symm
      · rcases ih _ _ _ hres with h1 | h2 | h3
        · obtain ⟨kw', meta', hm, hs, he, hr⟩ := h1
          exact Or.inl ⟨kw', meta', List.mem_cons_of_mem _ hm, hs, he, hr⟩
        · obtain ⟨kw', meta', hm, hs, hk, hu⟩ := h2
          exact Or.inr (Or.inl ⟨kw', meta', List.mem_cons_of_mem _ hm, hs, hk, hu⟩)
        · exact Or.inr (Or.inr h3)
    · rename_i hsingle
      have hsingle' : meta.isSingleWord = false := by
        simpa using hsingle
      split at hres
      · rcases ih _ _ _ hres with h1 | h2 | h3
        · obtain ⟨kw', meta', hm, hs, he, hr⟩ := h1
          exact Or.inl ⟨kw', meta', List.mem_cons_of_mem _ hm, hs, he, hr⟩
        · obtain ⟨kw', meta', hm, hs, hk, hu⟩ := h2
          exact Or.inr (Or.inl ⟨kw', meta', List.mem_cons_of_mem _ hm, hs, hk, hu⟩)
        · exact Or.inr (Or.inr h3)
      · split at hres
        · rcases ih _ _ _ hres with h1 | h2 | h3
          · obtain ⟨kw', meta', hm, hs, he, hr⟩ := h1
            exact Or.inl ⟨kw', meta', List.mem_cons_of_mem _ hm, hs, he, hr⟩
          · obtain ⟨kw', meta', hm, hs, hk, hu⟩ := h2
            exact Or.inr (Or.inl ⟨kw', meta', List.mem_cons_of_mem _ hm, hs, hk, hu⟩)
          · right; left
            refine ⟨kw, meta, List.mem_cons_self _ _, hsingle', ?_, ?_⟩
            · rw [← Option.some.inj h3]
            · rw [← Option.some.inj h3]
        · rcases ih _ _ _ hres with h1 | h2 | h3
          · obtain ⟨kw', meta', hm, hs, he, hr⟩ := h1
            exact Or.inl ⟨kw', meta', List.mem_cons_of_mem _ hm, hs, he, hr⟩
          · obtain ⟨kw', meta', hm, hs, hk, hu⟩ := h2
            exact Or.inr (Or.inl ⟨kw', meta', List.mem_cons_of_mem _ hm, hs, hk, hu⟩)
          · exact Or.inr (Or.inr h3)

/-- If a single-word entry equal to the lower-cased phrase occurs in the map
(keys pairwise distinct), the loop reaches it and returns it with score
`1`, regardless of the incoming best state. -/
theorem frkLoop_reach (phrase : Str) (ps : List Str) (l : KwMap)
    (kw : Str) (meta : KeywordMeta)
    (hnodup : (l.map Prod.fst).Nodup) (hmem : (kw, meta) ∈ l)
    (hsingle : meta.isSingleWord = true) (heq : toLowerStr phrase = kw) :
    ∀ (best : Option KwMatch) (bs : Score),
      frkLoop phrase ps l best bs = some ⟨kw, meta.url, ⟨1, 1⟩⟩ := by
  induction l with
  | nil => simp at hmem
  | cons e rest ih =>
    intro best bs
    obtain ⟨kw0, meta0⟩ := e
    simp only [List.map_cons, List.nodup_cons] at hnodup
    rcases List.mem_cons.mp hmem with hhead | htail
    · obtain ⟨h1, h2⟩ := Prod.mk.injEq _ _ _ _ ▸ hhead
      subst h1
      subst h2
      unfold frkLoop
      rw [if_pos hsingle, if_pos heq]
    · have hk : kw0 ≠ kw := by
        intro hkk
        apply hnodup.1
        rw [hkk]
        exact List.mem_map_of_mem Prod.fst htail
      unfold frkLoop
      by_cases h0 : meta0.isSingleWord
      · rw [if_pos h0, if_neg (fun hh : toLowerStr phrase = kw0 => hk (hh ▸ heq ▸ rfl))]
        exact ih hnodup.2 htail best bs
      · rw [if_neg h0]
        split
        · exact ih hnodup.2 htail best bs
        · split
          · exact ih hnodup.2 htail _ _
          · exact ih hnodup.2 htail best bs

/-! ### `calculateSemanticSimilarity` lemmas -/

/-- The similarity scorer returns `NaN` (modelled `none`) exactly when both
inputs tokenize to no word tokens — then both stem sets, hence their union,
are empty and the JS division is `0/0`. -/
theorem calcSim_none_iff (p1 p2 : Str) :
    calculateSemanticSimilarity p1 p2 = none ↔
      jsTokenize (toLowerStr p1) = [] ∧ jsTokenize (toLowerStr p2) = [] := by
  have key :
      ((setOfList (setOfList ((jsTokenize (toLowerStr p1)).map cachedStem) ++
        setOfList ((jsTokenize (toLowerStr p2)).map cachedStem))).length = 0) ↔
      (jsTokenize (toLowerStr p1) = [] ∧ jsTokenize (toLowerStr p2) = []) := by
    rw [List.length_eq_zero, setOfList_eq_nil_iff, List.append_eq_nil,
      setOfList_eq_nil_iff, setOfList_eq_nil_iff, List.map_eq_nil_iff, List.map_eq_nil_iff]
  simp only [calculateSemanticSimilarity]
  split
  · rename_i h
    exact iff_of_true rfl (key.mp h)
  · rename_i h
    exact iff_of_false (by simp) (fun hr => h (key.mpr hr))

/-! ## Claims -/

set_option maxRecDepth 100000

/-- C2: whenever the body of `processInternalLinks` raises an internal
error, the top-level `catch` returns the original content string unchanged
as `updated_content`, together with `found_links = []` and
`stats = {totalMatches := 0, uniqueUrls := 0}` — a partially rewritten
content is never returned. -/
theorem c2_error_fallback (content : String) (arg : Option KwMap) (e : String)
    (h : processInternalLinksCore content arg = Except.error e) :
    processInternalLinks content arg = ⟨[], content, ⟨0, 0⟩⟩ := by
  unfold processInternalLinks
  rw [h]

theorem c2_error_fallback_witness :
    processInternalLinksCore "hello" none = Except.error "Invalid sitemap data format" ∧
    processInternalLinks "hello" none = ⟨[], "hello", ⟨0, 0⟩⟩ :=
  ⟨rfl, c2_error_fallback "hello" none "Invalid sitemap data format" rfl⟩

/-- C10: when a run of `processInternalLinks` accepts zero matches, its
`updated_content` is the `trimEnd` of the input — the split lines are
re-joined with `'\n'` and the result trimmed — so a content with trailing
whitespace is not returned byte-identically even though nothing was
linked. -/
theorem c10_trailing_trim (content : String) (m : KwMap)
    (h : (processInternalLinks content (some m)).stats.totalMatches = 0)
    (hw : jsTrimEnd content.data ≠ content.data) :
    (processInternalLinks content (some m)).updated_content
        = String.mk (jsTrimEnd content.data) ∧
    (processInternalLinks content (some m)).updated_content ≠ content := by
  have h1 : (processInternalLinks content (some m)).updated_content
      = String.mk (jsTrimEnd content.data) := zero_total_updated content m h
  refine ⟨h1, fun hc => hw ?_⟩
  exact congrArg String.data (h1.symm.trans hc)

theorem c10_trailing_trim_witness :
    (processInternalLinks "hi \n" (some [])).updated_content
        = String.mk (jsTrimEnd "hi \n".data) ∧
    (processInternalLinks "hi \n" (some [])).updated_content ≠ "hi \n" :=
  c10_trailing_trim "hi \n" [] (by decide) (by decide)

/-- C1 (counterexample): re-running the engine on its own output is NOT
idempotent.  With the single multi-word keyword `big plan`, the first run
links the phrase `big plan`; the reworded occurrence `plan big` (same stem
set, Jaccard score 1) was blocked only by the run-local keyword-dedup set,
which does not persist, so the second run accepts one new match and changes
the content again. -/
theorem c1_second_run_counterexample :
    (processInternalLinks (processInternalLinks "A big plan works. The plan big test."
        (some [("big plan".data, ⟨"u".data, false⟩)])).updated_content
        (some [("big plan".data, ⟨"u".data, false⟩)])).stats.totalMatches = 1 ∧
    (processInternalLinks (processInternalLinks "A big plan works. The plan big test."
        (some [("big plan".data, ⟨"u".data, false⟩)])).updated_content
        (some [("big plan".data, ⟨"u".data, false⟩)])).updated_content
      = "A [big plan](u) works. The [plan big](u) test." := by
  exact ⟨by decide, by decide⟩

/-- C1 (amended): a second run of the engine on its own `updated_content`
may accept new matches; what holds is that whenever the second run accepts
zero matches, its `updated_content` is byte-identical to its input, because
the first run's output is already `trimEnd`-stable. -/
theorem c1_second_run_amended (content : String) (m : KwMap)
    (h : (processInternalLinks (processInternalLinks content (some m)).updated_content
        (some m)).stats.totalMatches = 0) :
    (processInternalLinks (processInternalLinks content (some m)).updated_content
        (some m)).updated_content
      = (processInternalLinks content (some m)).updated_content := by
  have h2 := zero_total_updated
    (processInternalLinks content (some m)).updated_content m h
  have h3 : (processInternalLinks content (some m)).updated_content.data
      = jsTrimEnd (concatNl (runProcess content.data m).1) := rfl
  show (processRun (processInternalLinks content (some m)).updated_content m).updated_content
      = (processInternalLinks content (some m)).updated_content
  rw [h2, h3, jsTrimEnd_idem]
  rfl

theorem c1_second_run_amended_witness :
    (processInternalLinks (processInternalLinks "hello" (some [])).updated_content
        (some [])).updated_content
      = (processInternalLinks "hello" (some [])).updated_content :=
  c1_second_run_amended "hello" [] (by decide)

/-- C7 (counterexample): a header line is not always byte-identical in
`updated_content`: when the content's last line is a header with trailing
whitespace, the final `trimEnd` strips that whitespace. -/
theorem c7_header_counterexample :
    (processInternalLinks "# H " (some [])).updated_content = "# H" ∧
    ("# H" : String) ≠ "# H " := by
  exact ⟨by decide, by decide⟩

/-- C7 (amended): header lines are never scanned and pass into the
processed line sequence byte-identically; `updated_content` is that
sequence re-joined with `'\n'` and `trimEnd`-ed, so only the trailing trim
can affect a final header line. -/
theorem c7_header_amended (content : String) (m : KwMap) :
    (processInternalLinks content (some m)).updated_content
        = String.mk (jsTrimEnd (concatNl (processedLinesOf content m))) ∧
    ∀ (i : Nat) (l0 : Str), (splitOnChar '\n' content.data)[i]? = some l0 →
      isHeaderLine l0 = true → (processedLinesOf content m)[i]? = some l0 := by
  refine ⟨rfl, ?_⟩
  intro i l0 h hhdr
  exact processLines_header_preserved m (splitOnChar '\n' content.data) 0 _ i l0 h hhdr

theorem c7_header_amended_witness :
    (processedLinesOf "# Title\nbody here" [])[0]? = some "# Title".data :=
  (c7_header_amended "# Title\nbody here" []).2 0 "# Title".data (by decide) (by decide)

/-- C8 (counterexample): a keyword can appear as a link label more than
once in the output: with single-word keyword `pricing` and an input whose
first `Pricing` occurrence precedes an existing `[Pricing](x)` link, the
engine inserts a second `Pricing` link, so the label occurs twice. -/
theorem c8_label_counterexample :
    (linkLabels (processInternalLinks "Pricing info, see [Pricing](x)."
        (some [("pricing".data, ⟨"u".data, true⟩)])).updated_content.data).map toLowerStr
      = ["pricing".data, "pricing".data] := by
  decide

/-- C8 (amended): at most one INSERTION is accepted per keyword key,
case-insensitively, across the whole content: the lower-cased keys of the
accepted-insertion trace are pairwise distinct, and `found_links` is the
projection of that trace; links already present in the input may still
duplicate a label. -/
theorem c8_keyword_dedup_amended (content : String) (m : KwMap) :
    (processInternalLinks content (some m)).found_links
        = (insertedTrace content m).map (fun r => ⟨String.mk r.phrase, String.mk r.url⟩) ∧
    ((insertedTrace content m).map fun r => toLowerStr r.key).Nodup :=
  ⟨rfl, insertedTrace_key_nodup content m⟩

/-- C3 (counterexample): the keyword derivation of `readSitemap` differs
from the claim: two URLs with the same final segment `docs` leave the LAST
one in the map (`Map.set` overwrites, first does not win), and a hyphenated
segment `Big-Plans` is stored case-preserved (`Big Plans`, plus the raw
alias), not lower-cased (`big plans` is absent). -/
theorem c3_keyword_index_counterexample :
    mapGet (readSitemapKeywords
        [⟨"https://a.com/docs".data, "/docs".data⟩,
         ⟨"https://b.com/docs".data, "/docs".data⟩]) "docs".data
      = some ⟨"https://b.com/docs".data, false⟩ ∧
    mapGet (readSitemapKeywords
        [⟨"https://a.com/docs".data, "/docs".data⟩,
         ⟨"https://b.com/docs".data, "/docs".data⟩]) "docs".data
      ≠ some ⟨"https://a.com/docs".data, false⟩ ∧
    mapGet (readSitemapKeywords [⟨"https://a.com/Big-Plans".data, "/Big-Plans".data⟩])
        "big plans".data = none ∧
    mapGet (readSitemapKeywords [⟨"https://a.com/Big-Plans".data, "/Big-Plans".data⟩])
        "Big Plans".data = some ⟨"https://a.com/Big-Plans".data, true⟩ := by
  exact ⟨by decide, by decide, by decide, by decide⟩

/-- C3 (amended): lookup characterization of the keyword map built by
`readSitemap`: every URL contributes the hyphens-to-spaces form of its
final path piece (URLs whose final piece is empty are skipped entirely),
case preserved — NOT lower-cased — plus the raw hyphenated segment as a
second keyword; when several URLs derive the same keyword, the LAST one in
iteration order wins (`Map.set` overwrites). -/
theorem c3_keyword_index_amended (urls : List UrlRec) (kw : Str) :
    mapGet (readSitemapKeywords urls) kw = lookupAmended urls kw := by
  unfold readSitemapKeywords lookupAmended
  rw [mapGet_foldl_readSitemapStep]
  rcases hf : urls.reverse.find? (fun u => derivesKw u kw) with _ | w
  · rfl
  · rfl

/-- C4 (counterexample): the single-word comparison is
`phrase.toLowerCase() === keyword` with the stored keyword NOT lower-cased:
for the single-word entry `Go`, even the identical phrase `Go` (which is
case-insensitively equal) yields no match. -/
theorem c4_single_word_counterexample :
    findRelatedKeywords "Go".data [("Go".data, ⟨"u".data, true⟩)] = none := by
  decide

/-- C4 (amended): for a keyword entry flagged `isSingleWord` in a map with
pairwise-distinct keys, `findRelatedKeywords` produces a match for that
entry exactly when the phrase has at least one word token AND its
lower-cased form equals the STORED keyword verbatim (case-insensitive
equality only when the stored keyword is itself lower-case, as `readSitemap`
variants that set `isSingleWord` produce); the score is then exactly `1`,
and no similarity-based partial match is ever produced for a single-word
entry. -/
theorem c4_single_word_amended (m : KwMap) (kw : Str) (meta : KeywordMeta)
    (phrase : Str) (hnodup : (m.map Prod.fst).Nodup)
    (hmem : (kw, meta) ∈ m) (hsingle : meta.isSingleWord = true) :
    ((∃ r, findRelatedKeywords phrase m = some r ∧ r.key = kw) ↔
      (jsTokenize (toLowerStr phrase) ≠ [] ∧ toLowerStr phrase = kw)) ∧
    (∀ r, findRelatedKeywords phrase m = some r → r.key = kw →
      r.score = ⟨1, 1⟩ ∧ r.url = meta.url) := by
  constructor
  · constructor
    · rintro ⟨r, hres, hkey⟩
      unfold findRelatedKeywords at hres
      split at hres
      · exact absurd hres (by simp)
      · rename_i hw
        rcases frkLoop_result phrase _ m _ _ _ hres with hA | hB | hC
        · obtain ⟨kw', meta', hm', hs', he', hr'⟩ := hA
          have hk' : kw' = kw := by rw [hr'] at hkey; exact hkey
          subst hk'
          exact ⟨hw, he'⟩
        · obtain ⟨kw', meta', hm', hs', hk', _⟩ := hB
          exfalso
          have hkk : kw' = kw := by rw [← hk', hkey]
          subst hkk
          have hv := kwmap_value_unique m hnodup kw' meta' meta hm' hmem
          rw [hv, hsingle] at hs'
          exact absurd hs' (by decide)
        · exact absurd hC (by simp)
    · rintro ⟨hw, heq⟩
      refine ⟨⟨kw, meta.url, ⟨1, 1⟩⟩, ?_, rfl⟩
      unfold findRelatedKeywords
      rw [if_neg hw]
      exact frkLoop_reach phrase _ m kw meta hnodup hmem hsingle heq _ _
  · intro r hres hkey
    unfold findRelatedKeywords at hres
    split at hres
    · exact absurd hres (by simp)
    · rcases frkLoop_result phrase _ m _ _ _ hres with hA | hB | hC
      · obtain ⟨kw', meta', hm', hs', he', hr'⟩ := hA
        have hk' : kw' = kw := by rw [hr'] at hkey; exact hkey
        subst hk'
        have hv := kwmap_value_unique m hnodup kw' meta' meta hm' hmem
        subst hv
        rw [hr']
        exact ⟨rfl, rfl⟩
      · obtain ⟨kw', meta', hm', hs', hk', _⟩ := hB
        exfalso
        have hkk : kw' = kw := by rw [← hk', hkey]
        subst hkk
        have hv := kwmap_value_unique m hnodup kw' meta' meta hm' hmem
        rw [hv, hsingle] at hs'
        exact absurd hs' (by decide)
      · exact absurd hC (by simp)

theorem c4_single_word_amended_witness :
    ∃ r, findRelatedKeywords "Go".data [("go".data, ⟨"u".data, true⟩)] = some r ∧
      r.key = "go".data :=
  ((c4_single_word_amended [("go".data, ⟨"u".data, true⟩)] "go".data ⟨"u".data, true⟩
      "Go".data (by decide) (by decide) rfl).1).mpr ⟨by decide, by decide⟩

/-- C5 (counterexample): when both inputs tokenize to no word tokens the
union of the stemmed token sets is empty and `calculateSemanticSimilarity`
returns `NaN` (the JS `0/0`, surviving `Math.min`), modelled `none` — it
does not return the number `0`. -/
theorem c5_similarity_counterexample :
    calculateSemanticSimilarity "!!!".data "???".data = none ∧
    calculateSemanticSimilarity "!!!".data "???".data ≠ some ⟨0, 1⟩ := by
  exact ⟨by decide, by decide⟩

/-- C5 (amended): `calculateSemanticSimilarity` returns
`min(1, |intersection| / |union|)` over the stemmed lower-cased token sets
whenever at least one token exists; when both strings tokenize to no word
tokens (empty union) it returns `NaN` — not `0`. -/
theorem c5_similarity_amended (p1 p2 : Str) :
    (calculateSemanticSimilarity p1 p2 = none ↔
      jsTokenize (toLowerStr p1) = [] ∧ jsTokenize (toLowerStr p2) = []) ∧
    ∀ s, calculateSemanticSimilarity p1 p2 = some s →
      s = minOne ⟨(setOfList ((setOfList ((jsTokenize (toLowerStr p1)).map cachedStem)).filter
            (· ∈ setOfList ((jsTokenize (toLowerStr p2)).map cachedStem)))).length,
          (setOfList (setOfList ((jsTokenize (toLowerStr p1)).map cachedStem) ++
            setOfList ((jsTokenize (toLowerStr p2)).map cachedStem))).length⟩ := by
  refine ⟨calcSim_none_iff p1 p2, ?_⟩
  intro s hs
  simp only [calculateSemanticSimilarity] at hs
  split at hs
  · exact absurd hs (by simp)
  · exact (Option.some.inj hs).symm

theorem c5_similarity_amended_witness :
    calculateSemanticSimilarity "hey".data "hi".data ≠ none :=
  fun h => absurd ((c5_similarity_amended "hey".data "hi".data).1.mp h) (by decide)

/-- C6: the no-overlap invariant fails on the code.  `isPositionSafe`
compares spans built from current-line indices against spans recorded in
original-content coordinates; after an earlier insertion in the same line
shifts the text, a phrase whose first occurrence lies INSIDE the label of a
pre-existing link passes the check, and the engine inserts a link nested
inside that link: the output contains `[kk [mm nn](u2) oo](u)` — the input
link `[kk mm nn oo](u)` with a complete second link spliced into its
label. -/
theorem c6_overlap_code_bug :
    (processInternalLinks "pp qq hh ss [kk mm nn oo](u) mm nn zz"
        (some [("pp qq".data, ⟨"uuuuuuuuuuuuuuuu".data, false⟩),
               ("mm nn".data, ⟨"u2".data, false⟩)])).updated_content
      = "[pp qq](uuuuuuuuuuuuuuuu) hh ss [kk [mm nn](u2) oo](u) mm nn zz" ∧
    containsSub (processInternalLinks "pp qq hh ss [kk mm nn oo](u) mm nn zz"
        (some [("pp qq".data, ⟨"uuuuuuuuuuuuuuuu".data, false⟩),
               ("mm nn".data, ⟨"u2".data, false⟩)])).updated_content.data
      "[kk [mm nn](u2) oo](u)".data = true ∧
    containsSub "pp qq hh ss [kk mm nn oo](u) mm nn zz".data
      "[kk mm nn oo](u)".data = true := by
  exact ⟨by decide, by decide, by decide⟩

/-- C9: on a sitemap index that references itself, the recursion of
`extractUrlsFromSitemap` yields no result at ANY depth: no amount of fuel
suffices, i.e. the source's unbounded recursion (no visited set, no depth
cap) never terminates, instead of returning a usable keyword index. -/
theorem c9_cycle_divergence :
    ∀ n : Nat, extractUrlsFromSitemap fetchSelf n selfDoc = none := by
  intro n
  induction n with
  | zero => rfl
  | succ k ih =>
    have ih2 : extractUrlsFromSitemap fetchSelf k
        ⟨some ["https://example.com/sitemap.xml"], none⟩ = none := ih
    simp [extractUrlsFromSitemap, fetchSelf, selfDoc, ih2]
